import Mathlib

/-!
Shallow embedding of `videos.py`, a content-placement ILP formulation for the
cache/video placement problem, together with theorems checking the
natural-language specification against it.

Modelling conventions:
* Python integers are `Int`; counts used as loop bounds (`range(n)`) go through
  `Int.toNat`, matching `range` of a non-positive integer being empty.
* A Python `dict` is an insertion-ordered association list with unique keys
  (`dictUpsert` / `dictLookup` / `dictKeys`).
* A Python `set` of pairs is a `Finset`.
* `sorted(..., key=lambda item: item[1])` is a stable sort by the second
  component (`List.insertionSort` with the `latOrder` relation).
* Python list indexing `endpoints[e]` is `pyIdx` (negative indices index from
  the end; out-of-range behaviour is irrelevant for the claims, which assume
  well-formed inputs).
* Solver variable values read back (`var.X`) are modelled as rationals; the
  rounding threshold `> 0.5` is the exact comparison with `1/2`.
* Input files are modelled as a list of token lines; a token is `Option Int`
  (`some k` for a token `int()` accepts, `none` for a non-integer token).
  `readline()` at end of file yields `''`, whose `split()` is the empty token
  list, hence `readLn [] = ([], [])`.
-/

namespace Videos

/-- One endpoint record: latency to the datacenter and the dict of
cache connections (`cache id -> latency`), as read by the parser. -/
structure Endpoint where
  L_dc : Int
  caches : List (Int × Int)
  deriving DecidableEq

/-- One request record `(v, e, n)`. -/
structure Request where
  v : Int
  e : Int
  n : Int
  deriving DecidableEq

/-! ### Python dict model -/

/-- `m[k] = f (m.get(k, d))` on an insertion-ordered association list:
update in place if the key is present, else append. -/
def dictUpsert {κ β : Type} [DecidableEq κ] (m : List (κ × β)) (k : κ) (d : β)
    (f : β → β) : List (κ × β) :=
  if m.any (fun q => decide (q.1 = k)) then
    m.map (fun q => if q.1 = k then (q.1, f q.2) else q)
  else m ++ [(k, f d)]

/-- `m.get(k, d)`. -/
def dictLookup {κ β : Type} [DecidableEq κ] (m : List (κ × β)) (k : κ) (d : β) : β :=
  match m.find? (fun q => decide (q.1 = k)) with
  | some q => q.2
  | none => d

/-- Iteration order of the dict's keys. -/
def dictKeys {κ β : Type} (m : List (κ × β)) : List κ :=
  m.map (fun q => q.1)

/-- Python list indexing `l[i]` for endpoint lists (negative indices count from
the end); total function, used by the claims only at valid indices. -/
def pyIdx (l : List Endpoint) (i : Int) : Endpoint :=
  if 0 ≤ i then l.getD i.toNat ⟨0, []⟩ else l.getD (l.length - (-i).toNat) ⟨0, []⟩

/-! ### Relevance filter (`relevant_pairs`) -/

/-- `relevant_pairs`: the set of `(cache, video)` pairs accumulated from every
request and the caches connected to its endpoint. -/
def relevantPairs (eps : List Endpoint) (reqs : List Request) : Finset (Int × Int) :=
  reqs.foldl
    (fun s r => (dictKeys (pyIdx eps r.e).caches).foldl (fun t c => insert (c, r.v) t) s)
    ∅

/-! ### Capacity constraints -/

/-- One `capacity_cache_c` constraint: linear terms `(coefficient, variable id)`
with right-hand side `X`, `lhs ≤ rhs`. -/
structure CapConstraint where
  cache : Int
  terms : List (Int × (Int × Int))
  rhs : Int
  deriving DecidableEq

/-- The capacity constraints: for each `c in range(C)`, the sum of
`video_sizes[v] * x[c, v]` over `v in range(V)` with `(c, v)` relevant, `≤ X`. -/
def capacityConstraints (V C X : Int) (sizes : List Int) (pairs : Finset (Int × Int)) :
    List CapConstraint :=
  (List.range C.toNat).map (fun (c : Nat) =>
    ⟨(c : Int),
     ((List.range V.toNat).filter (fun (v : Nat) => decide (((c : Int), (v : Int)) ∈ pairs))).map
       (fun (v : Nat) => (sizes.getD v 0, ((c : Int), (v : Int)))),
     X⟩)

/-- An assignment of the binary `x` variables satisfies a capacity constraint. -/
def satisfiesCap (A : Int × Int → Bool) (cc : CapConstraint) : Prop :=
  ((cc.terms.map (fun t => t.1 * (if A t.2 then 1 else 0))).sum ≤ cc.rhs)

instance satisfiesCap.dec (A : Int × Int → Bool) (cc : CapConstraint) :
    Decidable (satisfiesCap A cc) := by
  unfold satisfiesCap
  infer_instance

/-- Total size of the videos assigned to cache `c` (over the declared video
range and the relevant pairs). -/
def cacheLoad (V : Int) (sizes : List Int) (pairs : Finset (Int × Int))
    (A : Int × Int → Bool) (c : Nat) : Int :=
  (((List.range V.toNat).filter
      (fun (v : Nat) => decide (((c : Int), (v : Int)) ∈ pairs) && A ((c : Int), (v : Int)))).map
    (fun (v : Nat) => sizes.getD v 0)).sum

/-! ### Objective construction -/

/-- `requests_summary`: aggregation of the request list into a dict
`(v, e) -> total n`. -/
def requestsSummary (reqs : List Request) : List ((Int × Int) × Int) :=
  reqs.foldl (fun m r => dictUpsert m (r.v, r.e) 0 (fun t => t + r.n)) []

/-- Sum of `n` over all request records for the pair `p` (specification-side
description of the aggregated demand). -/
def aggDemand (reqs : List Request) (p : Int × Int) : Int :=
  ((reqs.filter (fun r => decide ((r.v, r.e) = p))).map (fun r => r.n)).sum

/-- The sort order used on `caches.items()`: ascending latency. -/
def latOrder (a b : Int × Int) : Prop := a.2 ≤ b.2

instance latOrder.decRel : DecidableRel latOrder := fun a b =>
  inferInstanceAs (Decidable (a.2 ≤ b.2))

instance latOrder.total : IsTotal (Int × Int) latOrder :=
  ⟨fun a b => le_total a.2 b.2⟩

instance latOrder.trans : IsTrans (Int × Int) latOrder :=
  ⟨fun _ _ _ h h' => le_trans h h'⟩

/-- `sorted_caches`: the endpoint's cache connections sorted (stably) by
ascending latency. -/
def sortedCaches (ep : Endpoint) : List (Int × Int) :=
  List.insertionSort latOrder ep.caches

/-- `valid_caches`: only the caches strictly better than the datacenter. -/
def validCaches (ep : Endpoint) : List (Int × Int) :=
  (sortedCaches ep).filter (fun p => decide (p.2 < ep.L_dc))

/-- `values[i] = L_dc - lat(i-th best valid cache)`. -/
def pairValues (ep : Endpoint) : List Int :=
  (validCaches ep).map (fun p => ep.L_dc - p.2)

/-- `marginal_gain` at rank `i`: `values[i] - values[i+1]` below the last rank,
`values[i]` at the last rank. -/
def mgAt (vals : List Int) (i : Nat) : Int :=
  if i < vals.length - 1 then vals.getD i 0 - vals.getD (i + 1) 0 else vals.getD i 0

/-- One auxiliary objective variable `z_{v}_{e}_{i}` together with its
objective coefficient and the cache ids of its subset-cover constraint
`z ≤ Σ_{c ∈ subset} x[c, v]`. -/
structure ZTerm where
  v : Int
  e : Int
  i : Nat
  coeff : Int
  subset : List Int
  deriving DecidableEq

/-- The `z` variables and cover constraints produced for one aggregated
`(v, e)` pair with demand `n`. -/
def pairZTerms (ep : Endpoint) (v e n : Int) : List ZTerm :=
  if ep.caches.isEmpty then [] else
  (List.range (validCaches ep).length).filterMap (fun i =>
    if mgAt (pairValues ep) i ≤ 0 then none
    else some ⟨v, e, i, mgAt (pairValues ep) i * n,
      ((validCaches ep).take (i + 1)).map (fun p => p.1)⟩)

/-- All objective terms: one block per entry of `requests_summary`, in dict
iteration order. -/
def zTerms (eps : List Endpoint) (reqs : List Request) : List ZTerm :=
  (requestsSummary reqs).flatMap (fun q => pairZTerms (pyIdx eps q.1.2) q.1.1 q.1.2 q.2)

/-- Objective value of an assignment of the `z` variables (identified by
`(v, e, i)`). -/
def objValue (eps : List Endpoint) (reqs : List Request)
    (zA : Int × Int × Nat → Bool) : Int :=
  ((zTerms eps reqs).map
    (fun t => t.coeff * (if zA (t.v, t.e, t.i) then 1 else 0))).sum

/-- Tight value of a cover-constrained `z` variable for a given placement of
the video (`stored c` = the video is on cache `c`): `1` exactly when some cache
of the subset stores it. -/
def coverValue (stored : Int → Bool) (s : List Int) : Int :=
  if s.any stored then 1 else 0

/-- Objective contribution of one `(v, e)` pair when every `z` takes its
tight (maximal feasible) value for the placement `stored`. -/
def pairContribution (ep : Endpoint) (v e n : Int) (stored : Int → Bool) : Int :=
  ((pairZTerms ep v e n).map (fun t => t.coeff * coverValue stored t.subset)).sum

/-! ### Solution extraction and output -/

/-- The solution dict `cache -> videos`, built by scanning `x.items()` in the
given order and keeping the variables whose value is `> 0.5`; empty when the
solver reported no feasible solution (`SolCount = 0`). -/
def extractSolution (solCount : Nat) (pairs : List (Int × Int))
    (val : Int × Int → ℚ) : List (Int × List Int) :=
  if 0 < solCount then
    pairs.foldl
      (fun sol p =>
        if (1 : ℚ)/2 < val p then dictUpsert sol p.1 [] (fun l => l ++ [p.2]) else sol)
      []
  else []

/-- The lines of `videos.out`: the number of caches used, then one line per
cache. -/
def outputLines (sol : List (Int × List Int)) : List String :=
  toString sol.length ::
    sol.map (fun q => toString q.1 ++ " " ++ String.intercalate " " (q.2.map toString))

/-! ### Parser -/

/-- A tokenized input line; `some k` is a token `int()` parses to `k`, `none`
a non-integer token. -/
abbrev Line := List (Option Int)

/-- The remaining input lines. -/
abbrev File := List Line

/-- `f.readline().split()`: the next line's tokens (empty at end of file) and
the rest of the file. -/
def readLn (f : File) : Line × File :=
  match f with
  | [] => ([], [])
  | l :: ls => (l, ls)

/-- `list(map(int, toks))`: every token must be an integer. -/
def parseTokens : Line → Option (List Int)
  | [] => some []
  | t :: ts =>
    match t with
    | none => none
    | some k =>
      match parseTokens ts with
      | none => none
      | some ks => some (k :: ks)

/-- `a, b, ... = map(int, toks)` with exactly `k` targets: fails on a token
count other than `k` or on any non-integer token. -/
def parseFixed (k : Nat) (toks : Line) : Option (List Int) :=
  if toks.length = k then parseTokens toks else none

/-- Reading the `K` cache-connection lines of one endpoint, accumulating the
`cache_connections` dict. -/
def parseConnections (d : List (Int × Int)) : Nat → File → Option (List (Int × Int) × File)
  | 0, f => some (d, f)
  | k + 1, f =>
    let (l, f') := readLn f
    match parseFixed 2 l with
    | some [c, lc] => parseConnections (dictUpsert d c 0 (fun _ => lc)) k f'
    | _ => none

/-- Reading the `E` endpoint blocks. -/
def parseEndpoints : Nat → File → Option (List Endpoint × File)
  | 0, f => some ([], f)
  | k + 1, f =>
    let (l, f') := readLn f
    match parseFixed 2 l with
    | some [ldc, kk] =>
      match parseConnections [] kk.toNat f' with
      | some (conns, f'') =>
        match parseEndpoints k f'' with
        | some (eps, f3) => some (⟨ldc, conns⟩ :: eps, f3)
        | none => none
      | none => none
    | _ => none

/-- Reading the `R` request lines. -/
def parseRequests : Nat → File → Option (List Request × File)
  | 0, f => some ([], f)
  | k + 1, f =>
    let (l, f') := readLn f
    match parseFixed 3 l with
    | some [v, e, n] =>
      match parseRequests k f' with
      | some (reqs, f'') => some (⟨v, e, n⟩ :: reqs, f'')
      | none => none
    | _ => none

/-- Everything read from the input file. -/
structure Input where
  V : Int
  E : Int
  R : Int
  C : Int
  X : Int
  sizes : List Int
  endpoints : List Endpoint
  requests : List Request
  deriving DecidableEq

/-- The whole parsing phase (lines 6-30 of the script): header, sizes line
(token count unchecked), endpoint blocks, request lines; surplus trailing
lines are never read. -/
def parseInput (f : File) : Option Input :=
  let (l1, f1) := readLn f
  match parseFixed 5 l1 with
  | some [v, e, r, c, x] =>
    let (l2, f2) := readLn f1
    match parseTokens l2 with
    | some sizes =>
      match parseEndpoints e.toNat f2 with
      | some (eps, f3) =>
        match parseRequests r.toNat f3 with
        | some (reqs, _) => some ⟨v, e, r, c, x, sizes, eps, reqs⟩
        | none => none
      | none => none
    | none => none
  | _ => none

/-- The optimization model: the `x` variables (one per relevant pair), the
capacity constraints, and the objective terms with their cover constraints. -/
structure Model where
  xvars : Finset (Int × Int)
  caps : List CapConstraint
  zs : List ZTerm

/-- Model construction from a parsed input (lines 33-129 of the script). -/
def buildModel (inp : Input) : Model :=
  { xvars := relevantPairs inp.endpoints inp.requests
    caps := capacityConstraints inp.V inp.C inp.X inp.sizes
      (relevantPairs inp.endpoints inp.requests)
    zs := zTerms inp.endpoints inp.requests }

/-- The model the program builds from an input file, `none` when parsing
fails (no model object exists at that point). -/
def modelOf (f : File) : Option Model :=
  (parseInput f).map buildModel

/-! ### Configuration surface -/

/-- The solver parameters the script applies. -/
structure SolverParams where
  mipGap : ℚ
  timeLimit : Int
  deriving DecidableEq

/-- `m.Params.MipGap = 0.005; m.Params.TimeLimit = 300` — constants, applied
unconditionally. -/
def solverParams : SolverParams :=
  ⟨5/1000, 300⟩

/-- Command-line handling: fewer than two entries in `sys.argv` is a usage
error, otherwise the input file is `sys.argv[1]`; nothing else is read. -/
def cliInputFile (argv : List String) : Option String :=
  if argv.length < 2 then none else some (argv.getD 1 "")

/-! ### Concrete sample data for witnesses and counterexamples -/

/-- Sample endpoint: datacenter latency 100, caches 0 and 1 at latencies
10 and 20. -/
def epA : Endpoint := ⟨100, [(0, 10), (1, 20)]⟩

/-- Sample endpoint list: just `epA`. -/
def epsA : List Endpoint := [epA]

/-- Endpoint with no connected cache. -/
def epNone : Endpoint := ⟨100, []⟩

/-- Endpoint whose only cache is slower than the datacenter. -/
def epBad : Endpoint := ⟨5, [(0, 10)]⟩

/-- A placement storing the video only on cache 1. -/
def storedB : Int → Bool := fun c => c == 1

/-- Two request records for the same `(v, e)` pair, aggregating to the same
demand as `reqsA`. -/
def reqsDup : List Request := [⟨0, 0, 2⟩, ⟨0, 0, 3⟩]

/-- Sample variable list for the extraction witness. -/
def pairsW : List (Int × Int) := [(0, 0), (0, 1), (1, 1)]

/-- Sample solved values for the extraction witness. -/
def valW : Int × Int → ℚ := fun p => if p = (0, 0) ∨ p = (1, 1) then 1 else 0

/-- Sample requests: 5 requests for video 0 at endpoint 0. -/
def reqsA : List Request := [⟨0, 0, 5⟩]

/-- Requests whose aggregated demand for `(0, 0)` is `0`. -/
def reqsZero : List Request := [⟨0, 0, 0⟩]

/-- Endpoint whose only connected cache has id `5`, with `C = 1` declared. -/
def epsHigh : List Endpoint := [⟨100, [(5, 10)]⟩]

/-- One request against `epsHigh`. -/
def reqsHigh : List Request := [⟨0, 0, 3⟩]

/-- A malformed input file: the header declares `V = 1` but the video-sizes
line has three tokens. -/
def linesBad : File :=
  [[some 1, some 1, some 1, some 1, some 10],
   [some 5, some 7, some 9],
   [some 100, some 1],
   [some 0, some 10],
   [some 0, some 0, some 4]]

/-! ## Lemmas about the dict model -/

theorem find?_map_update {κ β : Type} [DecidableEq κ] (m : List (κ × β)) (k p : κ)
    (f : β → β) :
    (m.map (fun q => if q.1 = k then (q.1, f q.2) else q)).find?
        (fun q => decide (q.1 = p)) =
      (m.find? (fun q => decide (q.1 = p))).map
        (fun q => if q.1 = k then (q.1, f q.2) else q) := by
  induction m with
  | nil => rfl
  | cons a m ih =>
    have hfst : (if a.1 = k then (a.1, f a.2) else a).1 = a.1 := by
      by_cases h : a.1 = k <;> simp [h]
    by_cases hp : a.1 = p
    · by_cases hak : a.1 = k
      · have hkp : k = p := hak.symm.trans hp
        simp [List.find?_cons, hak, hp, hkp]
      · have hpk : ¬p = k := fun h => hak (hp.trans h)
        simp [List.find?_cons, hak, hp, hpk]
    · by_cases hak : a.1 = k
      · have hkp : ¬k = p := fun h => hp (hak.trans h)
        simp [List.find?_cons, hak, hkp, ih]
      · simp [List.find?_cons, hak, hp, ih]

theorem find?_eq_none_of_not_any {κ β : Type} [DecidableEq κ] (m : List (κ × β)) (k : κ)
    (hany : ¬m.any (fun q => decide (q.1 = k)) = true) :
    m.find? (fun q => decide (q.1 = k)) = none := by
  rw [List.find?_eq_none]
  intro x hx hxk
  exact hany (List.any_eq_true.mpr ⟨x, hx, hxk⟩)

theorem dictLookup_upsert {κ β : Type} [DecidableEq κ] (m : List (κ × β)) (k p : κ)
    (d : β) (f : β → β) :
    dictLookup (dictUpsert m k d f) p d =
      if p = k then f (dictLookup m k d) else dictLookup m p d := by
  unfold dictUpsert
  by_cases hany : m.any (fun q => decide (q.1 = k))
  · simp only [hany, if_true]
    simp only [dictLookup]
    rw [find?_map_update]
    by_cases hp : p = k
    · subst hp
      rcases hk : m.find? (fun q => decide (q.1 = p)) with _ | q
      · rcases List.any_eq_true.mp hany with ⟨x, hx, hxk⟩
        rw [List.find?_eq_none] at hk
        exact absurd hxk (hk x hx)
      · have h1 := List.find?_some hk
        have h2 : q.1 = p := by simpa using h1
        simp [hk, h2]
    · rcases hk : m.find? (fun q => decide (q.1 = p)) with _ | q
      · simp [hk, hp]
      · have h1 := List.find?_some hk
        have h2 : q.1 = p := by simpa using h1
        have h3 : ¬q.1 = k := fun h => hp (h2 ▸ h)
        simp [hk, hp, h3]
  · rw [if_neg hany]
    simp only [dictLookup]
    rw [List.find?_append]
    by_cases hp : p = k
    · subst hp
      rw [find?_eq_none_of_not_any m p hany]
      simp [List.find?_cons]
    · rcases hk : m.find? (fun q => decide (q.1 = p)) with _ | q
      · have : ¬k = p := fun h => hp h.symm
        simp [hk, List.find?_cons, this, hp, Option.or]
      · simp [hk, hp, Option.or]

theorem dictKeys_upsert {κ β : Type} [DecidableEq κ] (m : List (κ × β)) (k : κ)
    (d : β) (f : β → β) :
    dictKeys (dictUpsert m k d f) =
      if m.any (fun q => decide (q.1 = k)) then dictKeys m else dictKeys m ++ [k] := by
  unfold dictUpsert dictKeys
  by_cases hany : m.any (fun q => decide (q.1 = k))
  · simp only [hany, if_true, List.map_map]
    exact List.map_congr_left (fun a _ => by by_cases h : a.1 = k <;> simp [h])
  · simp [hany]

theorem mem_dictKeys_upsert {κ β : Type} [DecidableEq κ] (m : List (κ × β)) (k a : κ)
    (d : β) (f : β → β) :
    a ∈ dictKeys (dictUpsert m k d f) ↔ a ∈ dictKeys m ∨ a = k := by
  rw [dictKeys_upsert]
  by_cases hany : m.any (fun q => decide (q.1 = k))
  · rcases List.any_eq_true.mp hany with ⟨x, hx, hxk⟩
    have hk : k ∈ dictKeys m := by
      have := of_decide_eq_true hxk
      exact this ▸ List.mem_map.mpr ⟨x, hx, rfl⟩
    simp only [hany, if_true]
    constructor
    · exact Or.inl
    · rintro (h | rfl)
      · exact h
      · exact hk
  · simp [hany]

theorem nodup_dictKeys_upsert {κ β : Type} [DecidableEq κ] (m : List (κ × β)) (k : κ)
    (d : β) (f : β → β) (h : (dictKeys m).Nodup) :
    (dictKeys (dictUpsert m k d f)).Nodup := by
  rw [dictKeys_upsert]
  by_cases hany : m.any (fun q => decide (q.1 = k))
  · simpa [hany] using h
  · have hk : k ∉ dictKeys m := by
      intro hmem
      rcases List.mem_map.mp hmem with ⟨q, hq, hq1⟩
      exact hany (List.any_eq_true.mpr ⟨q, hq, by simp [hq1]⟩)
    rw [if_neg hany, List.nodup_append]
    refine ⟨h, List.nodup_singleton k, ?_⟩
    intro a ha hb
    rw [List.mem_singleton] at hb
    exact hk (hb ▸ ha)

theorem dictLookup_of_mem {κ β : Type} [DecidableEq κ] (m : List (κ × β)) (q : κ × β)
    (d : β) (hn : (dictKeys m).Nodup) (hq : q ∈ m) :
    dictLookup m q.1 d = q.2 := by
  induction m with
  | nil => cases hq
  | cons a m ih =>
    rcases List.mem_cons.mp hq with rfl | hq
    · simp [dictLookup, List.find?_cons]
    · have hcons := List.nodup_cons.mp (show (a.1 :: dictKeys m).Nodup from hn)
      have ha1 : ¬a.1 = q.1 := by
        intro h
        have hmem : q.1 ∈ dictKeys m := List.mem_map.mpr ⟨q, hq, rfl⟩
        have hn1 := hcons.1
        rw [h] at hn1
        exact hn1 hmem
      have hn' : (dictKeys m).Nodup := hcons.2
      simpa [dictLookup, List.find?_cons, ha1] using ih hn' hq

/-! ## Lemmas about the aggregation of requests -/

theorem foldl_summary_lookup (reqs : List Request) :
    ∀ (m : List ((Int × Int) × Int)) (p : Int × Int),
      dictLookup (reqs.foldl (fun m r => dictUpsert m (r.v, r.e) 0 (fun t => t + r.n)) m) p 0 =
        dictLookup m p 0 + aggDemand reqs p := by
  induction reqs with
  | nil => intro m p; simp [aggDemand]
  | cons r reqs ih =>
    intro m p
    rw [List.foldl_cons, ih, dictLookup_upsert]
    have hagg : aggDemand (r :: reqs) p =
        (if (r.v, r.e) = p then r.n else 0) + aggDemand reqs p := by
      simp only [aggDemand, List.filter_cons]
      by_cases h : (r.v, r.e) = p <;> simp [h]
    rw [hagg]
    by_cases h : p = (r.v, r.e)
    · rw [if_pos h, if_pos h.symm, ← h]
      omega
    · rw [if_neg h, if_neg (fun hh => h hh.symm)]
      omega

theorem foldl_summary_keys (reqs : List Request) :
    ∀ (m : List ((Int × Int) × Int)) (p : Int × Int),
      (p ∈ dictKeys (reqs.foldl (fun m r => dictUpsert m (r.v, r.e) 0 (fun t => t + r.n)) m) ↔
        p ∈ dictKeys m ∨ ∃ r ∈ reqs, (r.v, r.e) = p) := by
  induction reqs with
  | nil => intro m p; simp
  | cons r reqs ih =>
    intro m p
    rw [List.foldl_cons, ih, mem_dictKeys_upsert]
    constructor
    · rintro ((h | h) | ⟨r', hr', hp⟩)
      · exact Or.inl h
      · exact Or.inr ⟨r, List.mem_cons_self r reqs, h.symm⟩
      · exact Or.inr ⟨r', List.mem_cons_of_mem r hr', hp⟩
    · rintro (h | ⟨r', hr', hp⟩)
      · exact Or.inl (Or.inl h)
      · rcases List.mem_cons.mp hr' with rfl | hr'
        · exact Or.inl (Or.inr hp.symm)
        · exact Or.inr ⟨r', hr', hp⟩

theorem foldl_summary_nodup (reqs : List Request) :
    ∀ (m : List ((Int × Int) × Int)), (dictKeys m).Nodup →
      (dictKeys (reqs.foldl (fun m r => dictUpsert m (r.v, r.e) 0 (fun t => t + r.n)) m)).Nodup := by
  induction reqs with
  | nil => intro m hm; exact hm
  | cons r reqs ih =>
    intro m hm
    rw [List.foldl_cons]
    exact ih _ (nodup_dictKeys_upsert _ _ _ _ hm)

theorem dictLookup_requestsSummary (reqs : List Request) (p : Int × Int) :
    dictLookup (requestsSummary reqs) p 0 = aggDemand reqs p := by
  have h := foldl_summary_lookup reqs [] p
  simpa [requestsSummary, dictLookup] using h

theorem mem_keys_requestsSummary (reqs : List Request) (p : Int × Int) :
    p ∈ dictKeys (requestsSummary reqs) ↔ ∃ r ∈ reqs, (r.v, r.e) = p := by
  have h := foldl_summary_keys reqs [] p
  simpa [requestsSummary, dictKeys] using h

theorem nodup_keys_requestsSummary (reqs : List Request) :
    (dictKeys (requestsSummary reqs)).Nodup := by
  exact foldl_summary_nodup reqs [] (by simp [dictKeys])

theorem aggDemand_eq_zero_of_not_mem (reqs : List Request) (p : Int × Int)
    (h : p ∉ dictKeys (requestsSummary reqs)) : aggDemand reqs p = 0 := by
  rw [mem_keys_requestsSummary] at h
  have hfilter : reqs.filter (fun r => decide ((r.v, r.e) = p)) = [] := by
    rw [List.filter_eq_nil_iff]
    intro r hr
    simp only [decide_eq_true_eq]
    exact fun hp => h ⟨r, hr, hp⟩
  simp [aggDemand, hfilter]

/-! ## Lemmas about the relevance filter -/

theorem mem_foldl_insert {α β : Type} [DecidableEq β] (l : List α) (g : α → β) :
    ∀ (s : Finset β) (x : β),
      (x ∈ l.foldl (fun t a => insert (g a) t) s ↔ x ∈ s ∨ ∃ a ∈ l, x = g a) := by
  induction l with
  | nil => intro s x; simp
  | cons a l ih =>
    intro s x
    rw [List.foldl_cons, ih]
    simp only [Finset.mem_insert, List.mem_cons]
    constructor
    · rintro ((h | h) | ⟨b, hb, hx⟩)
      · exact Or.inr ⟨a, Or.inl rfl, h⟩
      · exact Or.inl h
      · exact Or.inr ⟨b, Or.inr hb, hx⟩
    · rintro (h | ⟨b, rfl | hb, hx⟩)
      · exact Or.inl (Or.inr h)
      · exact Or.inl (Or.inl hx)
      · exact Or.inr ⟨b, hb, hx⟩

theorem mem_relevantPairs (eps : List Endpoint) (reqs : List Request) (c v : Int) :
    ((c, v) ∈ relevantPairs eps reqs ↔
      ∃ r ∈ reqs, r.v = v ∧ c ∈ dictKeys (pyIdx eps r.e).caches) := by
  have general : ∀ (s : Finset (Int × Int)) (x : Int × Int),
      (x ∈ reqs.foldl
          (fun s r => (dictKeys (pyIdx eps r.e).caches).foldl (fun t c => insert (c, r.v) t) s)
          s ↔
        x ∈ s ∨ ∃ r ∈ reqs, ∃ cc ∈ dictKeys (pyIdx eps r.e).caches, x = (cc, r.v)) := by
    induction reqs with
    | nil => intro s x; simp
    | cons r reqs ih =>
      intro s x
      rw [List.foldl_cons, ih, mem_foldl_insert]
      simp only [List.mem_cons]
      constructor
      · rintro ((h | ⟨cc, hcc, hx⟩) | ⟨r', hr', hmem⟩)
        · exact Or.inl h
        · exact Or.inr ⟨r, Or.inl rfl, cc, hcc, hx⟩
        · exact Or.inr ⟨r', Or.inr hr', hmem⟩
      · rintro (h | ⟨r', rfl | hr', hmem⟩)
        · exact Or.inl (Or.inl h)
        · exact Or.inl (Or.inr hmem)
        · exact Or.inr ⟨r', hr', hmem⟩
  rw [relevantPairs, general]
  simp only [Finset.not_mem_empty, false_or]
  constructor
  · rintro ⟨r, hr, cc, hcc, hx⟩
    rcases Prod.mk.injEq .. ▸ hx with ⟨h1, h2⟩
    exact ⟨r, hr, h2.symm, h1 ▸ hcc⟩
  · rintro ⟨r, hr, hv, hc⟩
    exact ⟨r, hr, c, hc, by rw [hv]⟩

/-! ## Lemmas about the sorted valid caches and the marginal gains -/

theorem validCaches_sorted (ep : Endpoint) :
    List.Pairwise (fun a b : Int × Int => a.2 ≤ b.2) (validCaches ep) :=
  List.Pairwise.filter _ (List.sorted_insertionSort latOrder ep.caches)

theorem mem_validCaches (ep : Endpoint) (p : Int × Int) :
    p ∈ validCaches ep ↔ p ∈ ep.caches ∧ p.2 < ep.L_dc := by
  simp [validCaches, sortedCaches, List.mem_filter, List.mem_insertionSort]

theorem pairValues_length (ep : Endpoint) :
    (pairValues ep).length = (validCaches ep).length := by
  rw [pairValues, List.length_map]

theorem pairValues_getD_pos (ep : Endpoint) (i : Nat) (hi : i < (pairValues ep).length) :
    0 < (pairValues ep).getD i 0 := by
  rw [List.getD_eq_getElem _ _ hi]
  have hmem : (pairValues ep)[i] ∈ pairValues ep := List.getElem_mem hi
  have hmem' : (pairValues ep)[i] ∈ (validCaches ep).map (fun p => ep.L_dc - p.2) := by
    simpa [pairValues] using hmem
  rcases List.mem_map.mp hmem' with ⟨p, hp, hval⟩
  have hfil : p ∈ (sortedCaches ep).filter (fun p => decide (p.2 < ep.L_dc)) := by
    simpa [validCaches] using hp
  have hdec : p.2 < ep.L_dc := of_decide_eq_true (List.mem_filter.mp hfil).2
  rw [← hval]
  omega

theorem pairValues_antitone (ep : Endpoint) (i : Nat)
    (hi : i + 1 < (pairValues ep).length) :
    (pairValues ep).getD (i + 1) 0 ≤ (pairValues ep).getD i 0 := by
  have hpw : List.Pairwise (fun x y : Int => y ≤ x) (pairValues ep) := by
    refine List.Pairwise.map _ ?_ (validCaches_sorted ep)
    intro a b hab
    omega
  have h := List.pairwise_iff_getElem.mp hpw i (i + 1) (by omega) hi (by omega)
  rw [List.getD_eq_getElem _ _ hi, List.getD_eq_getElem _ _ (by omega : i < (pairValues ep).length)]
  exact h

theorem mgAt_nonneg (ep : Endpoint) (i : Nat) (hi : i < (pairValues ep).length) :
    0 ≤ mgAt (pairValues ep) i := by
  unfold mgAt
  by_cases h : i < (pairValues ep).length - 1
  · rw [if_pos h]
    have := pairValues_antitone ep i (by omega)
    omega
  · rw [if_neg h]
    have := pairValues_getD_pos ep i hi
    omega

theorem mgAt_sum_range (vals : List Int) :
    ∀ (m j : Nat), j + m = vals.length → 0 < m →
      (∑ t ∈ Finset.range m, mgAt vals (j + t)) = vals.getD j 0 := by
  intro m
  induction m with
  | zero => intro j _ h0; exact absurd h0 (lt_irrefl 0)
  | succ m ih =>
    intro j hlen _
    rcases Nat.eq_zero_or_pos m with rfl | hm
    · rw [Finset.sum_range_one]
      have hnot : ¬(j < vals.length - 1) := by omega
      simp [mgAt, hnot]
    · rw [Finset.sum_range_succ']
      have hre : (∑ t ∈ Finset.range m, mgAt vals (j + (t + 1))) =
          ∑ t ∈ Finset.range m, mgAt vals ((j + 1) + t) :=
        Finset.sum_congr rfl (fun t _ => by congr 1; omega)
      rw [hre, ih (j + 1) (by omega) hm]
      have hj : j + 0 < vals.length - 1 := by omega
      rw [mgAt, if_pos hj]
      have h0 : j + 0 = j := by omega
      rw [h0]
      omega

theorem mgAt_telescope (vals : List Int) (j : Nat) (hj : j < vals.length) :
    (∑ i ∈ Finset.Ico j vals.length, mgAt vals i) = vals.getD j 0 := by
  rw [Finset.sum_Ico_eq_sum_range]
  exact mgAt_sum_range vals (vals.length - j) j (by omega) (by omega)

/-! ## Generic sum and search lemmas -/

theorem listSum_range {M : Type} [AddCommMonoid M] (n : Nat) (f : Nat → M) :
    ((List.range n).map f).sum = ∑ i ∈ Finset.range n, f i := by
  induction n with
  | zero => simp
  | succ n ih =>
    rw [List.range_succ, List.map_append, List.sum_append, Finset.sum_range_succ, ih]
    simp

theorem sum_map_filterMap {α β : Type} (l : List α) (f : α → Option β) (g : β → Int) :
    ((l.filterMap f).map g).sum = (l.map (fun a => ((f a).map g).getD 0)).sum := by
  induction l with
  | nil => rfl
  | cons a l ih =>
    rw [List.filterMap_cons]
    rcases hfa : f a with _ | b
    · simp [hfa, ih]
    · simp [hfa, ih]

theorem any_map' {α β : Type} (f : α → β) (q : β → Bool) (l : List α) :
    (l.map f).any q = l.any (fun a => q (f a)) := by
  induction l with
  | nil => rfl
  | cons a l ih => simp [ih]

theorem any_take_iff {α : Type} (q : α → Bool) :
    ∀ (l : List α) (n : Nat),
      ((l.take n).any q = true ↔ l.findIdx q < n ∧ l.findIdx q < l.length) := by
  intro l
  induction l with
  | nil => intro n; simp
  | cons a l ih =>
    intro n
    cases n with
    | zero => simp
    | succ n =>
      rw [List.take_succ_cons, List.any_cons]
      by_cases hqa : q a = true
      · simp [hqa, List.findIdx_cons]
      · simp only [hqa, Bool.false_or]
        rw [ih n]
        simp only [List.findIdx_cons, hqa, cond_false, List.length_cons]
        omega

/-! ## Lemmas about the per-pair objective terms -/

theorem validCaches_of_empty (ep : Endpoint) (h : ep.caches.isEmpty = true) :
    validCaches ep = [] := by
  rw [validCaches, sortedCaches, List.isEmpty_iff.mp h]
  rfl

theorem pairZTerms_of_no_valid (ep : Endpoint) (v e n : Int)
    (h : validCaches ep = []) : pairZTerms ep v e n = [] := by
  by_cases hemp : ep.caches.isEmpty
  · rw [pairZTerms, if_pos hemp]
  · rw [pairZTerms, if_neg hemp, h]
    simp

theorem mem_pairZTerms (ep : Endpoint) (v e n : Int) (t : ZTerm) :
    t ∈ pairZTerms ep v e n ↔
      ∃ i : Nat, i < (validCaches ep).length ∧ 0 < mgAt (pairValues ep) i ∧
        t = ⟨v, e, i, mgAt (pairValues ep) i * n,
              ((validCaches ep).take (i + 1)).map (fun p => p.1)⟩ := by
  by_cases hemp : ep.caches.isEmpty
  · rw [pairZTerms, if_pos hemp]
    have hnil := validCaches_of_empty ep hemp
    simp [hnil]
  · rw [pairZTerms, if_neg hemp, List.mem_filterMap]
    constructor
    · rintro ⟨i, hi, hfi⟩
      rw [List.mem_range] at hi
      by_cases hmg : mgAt (pairValues ep) i ≤ 0
      · rw [if_pos hmg] at hfi
        cases hfi
      · rw [if_neg hmg] at hfi
        exact ⟨i, hi, by omega, (Option.some_inj.mp hfi).symm⟩
    · rintro ⟨i, hi, hmg, rfl⟩
      refine ⟨i, List.mem_range.mpr hi, ?_⟩
      rw [if_neg (by omega)]

theorem pairContribution_eq (ep : Endpoint) (v e n : Int) (stored : Int → Bool) :
    pairContribution ep v e n stored =
      n * (match (validCaches ep).findIdx? (fun p => stored p.1) with
           | some j => (pairValues ep).getD j 0
           | none => 0) := by
  by_cases hemp : ep.caches.isEmpty
  · have hnil := validCaches_of_empty ep hemp
    rw [pairContribution, pairZTerms, if_pos hemp, hnil]
    simp
  · rw [pairContribution, pairZTerms, if_neg hemp, sum_map_filterMap, listSum_range]
    have step1 : ∀ i ∈ Finset.range (validCaches ep).length,
        (((fun i => if mgAt (pairValues ep) i ≤ 0 then (none : Option ZTerm)
            else some ⟨v, e, i, mgAt (pairValues ep) i * n,
              ((validCaches ep).take (i + 1)).map (fun p => p.1)⟩) i).map
          (fun t => t.coeff * coverValue stored t.subset)).getD 0 =
        n * (mgAt (pairValues ep) i *
          (if ((validCaches ep).take (i + 1)).any (fun p => stored p.1) then 1 else 0)) := by
      intro i hi
      rw [Finset.mem_range] at hi
      show ((if mgAt (pairValues ep) i ≤ 0 then (none : Option ZTerm)
          else some ⟨v, e, i, mgAt (pairValues ep) i * n,
            ((validCaches ep).take (i + 1)).map (fun p => p.1)⟩).map
          (fun t => t.coeff * coverValue stored t.subset)).getD 0 =
        n * (mgAt (pairValues ep) i *
          (if ((validCaches ep).take (i + 1)).any (fun p => stored p.1) then 1 else 0))
      by_cases hmg : mgAt (pairValues ep) i ≤ 0
      · rw [if_pos hmg]
        have hz : mgAt (pairValues ep) i = 0 :=
          le_antisymm hmg (mgAt_nonneg ep i (by rw [pairValues_length]; omega))
        simp [hz]
      · rw [if_neg hmg]
        simp only [Option.map_some', Option.getD_some, coverValue]
        rw [any_map']
        ring
    rw [Finset.sum_congr rfl step1, ← Finset.mul_sum]
    rcases hfind : (validCaches ep).findIdx? (fun p => stored p.1) with _ | j
    all_goals rw [hfind]
    · have hall := List.findIdx?_eq_none_iff.mp hfind
      have hzero : ∀ i ∈ Finset.range (validCaches ep).length,
          mgAt (pairValues ep) i *
            (if ((validCaches ep).take (i + 1)).any (fun p => stored p.1) then 1 else 0) = 0 := by
        intro i _
        have hanyf : ((validCaches ep).take (i + 1)).any (fun p => stored p.1) = false := by
          rw [Bool.eq_false_iff]
          intro htrue
          rcases List.any_eq_true.mp htrue with ⟨x, hx, hqx⟩
          rw [hall x (List.mem_of_mem_take hx)] at hqx
          cases hqx
        rw [hanyf]
        simp
      rw [Finset.sum_congr rfl hzero]
      simp
    · rcases List.findIdx?_eq_some_iff_findIdx_eq.mp hfind with ⟨hjlen, hjeq⟩
      have step2 : ∀ i ∈ Finset.range (validCaches ep).length,
          mgAt (pairValues ep) i *
            (if ((validCaches ep).take (i + 1)).any (fun p => stored p.1) then 1 else 0) =
          (if j ≤ i then mgAt (pairValues ep) i else 0) := by
        intro i _
        by_cases hji : j ≤ i
        · have hany : ((validCaches ep).take (i + 1)).any (fun p => stored p.1) = true := by
            rw [any_take_iff, hjeq]
            exact ⟨by omega, hjlen⟩
          rw [hany, if_pos hji]
          simp
        · have hanyf : ((validCaches ep).take (i + 1)).any (fun p => stored p.1) = false := by
            rw [Bool.eq_false_iff]
            intro htrue
            rcases (any_take_iff _ _ _).mp htrue with ⟨hlt, _⟩
            rw [hjeq] at hlt
            omega
          rw [hanyf, if_neg hji]
          simp
      rw [Finset.sum_congr rfl step2, ← Finset.sum_filter]
      have hIco : (Finset.range (validCaches ep).length).filter (fun i => j ≤ i) =
          Finset.Ico j (pairValues ep).length := by
        ext i
        simp only [Finset.mem_filter, Finset.mem_range, Finset.mem_Ico, pairValues_length]
        omega
      rw [hIco, mgAt_telescope (pairValues ep) j (by rw [pairValues_length]; exact hjlen)]

/-! ## Lemmas about the full objective term list -/

theorem mem_zTerms (eps : List Endpoint) (reqs : List Request) (t : ZTerm) :
    t ∈ zTerms eps reqs ↔
      ∃ q ∈ requestsSummary reqs, t ∈ pairZTerms (pyIdx eps q.1.2) q.1.1 q.1.2 q.2 := by
  rw [zTerms, List.mem_flatMap]

theorem zTerm_fields (ep : Endpoint) (v e n : Int) (t : ZTerm)
    (h : t ∈ pairZTerms ep v e n) : t.v = v ∧ t.e = e := by
  rcases (mem_pairZTerms ep v e n t).mp h with ⟨i, _, _, rfl⟩
  exact ⟨rfl, rfl⟩

theorem mem_zTerms_iff (eps : List Endpoint) (reqs : List Request) (t : ZTerm) :
    t ∈ zTerms eps reqs ↔
      ((t.v, t.e) ∈ dictKeys (requestsSummary reqs) ∧
        t ∈ pairZTerms (pyIdx eps t.e) t.v t.e (aggDemand reqs (t.v, t.e))) := by
  rw [mem_zTerms]
  constructor
  · rintro ⟨q, hq, ht⟩
    rcases zTerm_fields _ _ _ _ _ ht with ⟨hv, he⟩
    have hkey : (t.v, t.e) = q.1 := by rw [hv, he]
    have hlook : dictLookup (requestsSummary reqs) q.1 0 = q.2 :=
      dictLookup_of_mem _ q 0 (nodup_keys_requestsSummary reqs) hq
    have hagg : aggDemand reqs (t.v, t.e) = q.2 := by
      rw [hkey, ← dictLookup_requestsSummary, hlook]
    refine ⟨?_, ?_⟩
    · rw [hkey]
      exact List.mem_map.mpr ⟨q, hq, rfl⟩
    · rw [hagg, hv, he]
      exact ht
  · rintro ⟨hk, ht⟩
    rcases List.mem_map.mp hk with ⟨q, hq, hq1⟩
    refine ⟨q, hq, ?_⟩
    have hagg : aggDemand reqs (t.v, t.e) = q.2 := by
      rw [← hq1, ← dictLookup_requestsSummary,
        dictLookup_of_mem _ q 0 (nodup_keys_requestsSummary reqs) hq]
    have h1 : q.1.1 = t.v := by rw [hq1]
    have h2 : q.1.2 = t.e := by rw [hq1]
    rw [h1, h2, ← hagg]
    exact ht

theorem pairZTerms_ids_nodup (ep : Endpoint) (v e n : Int) :
    ((pairZTerms ep v e n).map (fun t => (t.v, t.e, t.i))).Nodup := by
  by_cases hemp : ep.caches.isEmpty
  · rw [pairZTerms, if_pos hemp]; simp
  · rw [pairZTerms, if_neg hemp, List.map_filterMap]
    refine List.Nodup.filterMap ?_ (List.nodup_range _)
    intro a a' b hb hb'
    by_cases h1 : mgAt (pairValues ep) a ≤ 0
    · rw [if_pos h1] at hb; simp at hb
    · rw [if_neg h1] at hb
      by_cases h2 : mgAt (pairValues ep) a' ≤ 0
      · rw [if_pos h2] at hb'; simp at hb'
      · rw [if_neg h2] at hb'
        simp only [Option.map_some', Option.mem_def, Option.some_inj] at hb hb'
        rw [← hb] at hb'
        simpa using hb'.symm

theorem zTerms_ids_nodup (eps : List Endpoint) (reqs : List Request) :
    ((zTerms eps reqs).map (fun t => (t.v, t.e, t.i))).Nodup := by
  rw [zTerms, List.map_flatMap]
  have main : ∀ (m : List ((Int × Int) × Int)), (dictKeys m).Nodup →
      (m.flatMap (fun q => (pairZTerms (pyIdx eps q.1.2) q.1.1 q.1.2 q.2).map
        (fun t => (t.v, t.e, t.i)))).Nodup := by
    intro m
    induction m with
    | nil => intro _; simp
    | cons q m ih =>
      intro hm
      rw [List.flatMap_cons, List.nodup_append]
      have hcons := List.nodup_cons.mp (show (q.1 :: dictKeys m).Nodup from hm)
      refine ⟨pairZTerms_ids_nodup _ _ _ _, ih hcons.2, ?_⟩
      intro a ha ha'
      have h1 : (a.1, a.2.1) = q.1 := by
        rcases List.mem_map.mp ha with ⟨t, ht, rfl⟩
        rcases (mem_pairZTerms _ _ _ _ t).mp ht with ⟨i, _, _, rfl⟩
        rfl
      have h2 : (a.1, a.2.1) ∈ dictKeys m := by
        rcases List.mem_flatMap.mp ha' with ⟨q', hq', hmem⟩
        rcases List.mem_map.mp hmem with ⟨t, ht, rfl⟩
        rcases (mem_pairZTerms _ _ _ _ t).mp ht with ⟨i, _, _, rfl⟩
        exact List.mem_map.mpr ⟨q', hq', rfl⟩
      exact hcons.1 (h1 ▸ h2)
  exact main _ (nodup_keys_requestsSummary reqs)

/-! ## Lemmas about the objective value -/

theorem sum_map_flatMap {α β : Type} (l : List α) (f : α → List β) (g : β → Int) :
    ((l.flatMap f).map g).sum = (l.map (fun a => ((f a).map g).sum)).sum := by
  induction l with
  | nil => rfl
  | cons a l ih => simp [List.flatMap_cons, ih]

theorem pairObj_linear (ep : Endpoint) (v e n : Int) (zA : Int × Int × Nat → Bool) :
    ((pairZTerms ep v e n).map
        (fun t => t.coeff * (if zA (t.v, t.e, t.i) then 1 else 0))).sum =
      n * ((pairZTerms ep v e 1).map
        (fun t => t.coeff * (if zA (t.v, t.e, t.i) then 1 else 0))).sum := by
  by_cases hemp : ep.caches.isEmpty
  · rw [pairZTerms, pairZTerms, if_pos hemp, if_pos hemp]; simp
  · rw [pairZTerms, pairZTerms, if_neg hemp, if_neg hemp]
    rw [sum_map_filterMap, sum_map_filterMap, listSum_range, listSum_range, Finset.mul_sum]
    refine Finset.sum_congr rfl ?_
    intro i _
    show ((if mgAt (pairValues ep) i ≤ 0 then (none : Option ZTerm)
        else some ⟨v, e, i, mgAt (pairValues ep) i * n,
          ((validCaches ep).take (i + 1)).map (fun p => p.1)⟩).map
        (fun t => t.coeff * (if zA (t.v, t.e, t.i) then 1 else 0))).getD 0 =
      n * ((if mgAt (pairValues ep) i ≤ 0 then (none : Option ZTerm)
        else some ⟨v, e, i, mgAt (pairValues ep) i * 1,
          ((validCaches ep).take (i + 1)).map (fun p => p.1)⟩).map
        (fun t => t.coeff * (if zA (t.v, t.e, t.i) then 1 else 0))).getD 0
    by_cases hmg : mgAt (pairValues ep) i ≤ 0
    · rw [if_pos hmg, if_pos hmg]; simp
    · rw [if_neg hmg, if_neg hmg]
      simp only [Option.map_some', Option.getD_some]
      ring

theorem objValue_eq_keyed (eps : List Endpoint) (reqs : List Request)
    (zA : Int × Int × Nat → Bool) :
    objValue eps reqs zA =
      ∑ p ∈ (dictKeys (requestsSummary reqs)).toFinset,
        aggDemand reqs p *
          ((pairZTerms (pyIdx eps p.2) p.1 p.2 1).map
            (fun t => t.coeff * (if zA (t.v, t.e, t.i) then 1 else 0))).sum := by
  rw [objValue, zTerms, sum_map_flatMap]
  have hstep : ∀ q ∈ requestsSummary reqs,
      ((pairZTerms (pyIdx eps q.1.2) q.1.1 q.1.2 q.2).map
        (fun t => t.coeff * (if zA (t.v, t.e, t.i) then 1 else 0))).sum =
      aggDemand reqs q.1 *
        ((pairZTerms (pyIdx eps q.1.2) q.1.1 q.1.2 1).map
          (fun t => t.coeff * (if zA (t.v, t.e, t.i) then 1 else 0))).sum := by
    intro q hq
    rw [pairObj_linear]
    congr 1
    rw [← dictLookup_requestsSummary]
    exact (dictLookup_of_mem _ q 0 (nodup_keys_requestsSummary reqs) hq).symm
  rw [List.map_congr_left hstep]
  have hkeys : (requestsSummary reqs).map (fun q =>
      aggDemand reqs q.1 *
        ((pairZTerms (pyIdx eps q.1.2) q.1.1 q.1.2 1).map
          (fun t => t.coeff * (if zA (t.v, t.e, t.i) then 1 else 0))).sum) =
      (dictKeys (requestsSummary reqs)).map (fun p =>
        aggDemand reqs p *
          ((pairZTerms (pyIdx eps p.2) p.1 p.2 1).map
            (fun t => t.coeff * (if zA (t.v, t.e, t.i) then 1 else 0))).sum) := by
    rw [dictKeys, List.map_map]
    rfl
  rw [hkeys, ← List.sum_toFinset _ (nodup_keys_requestsSummary reqs)]

/-! ## Lemmas about the capacity constraints -/

theorem sum_filter_indicator (l : List Nat) (P A' : Nat → Bool) (s : Nat → Int) :
    ((l.filter P).map (fun v => s v * (if A' v then 1 else 0))).sum =
      ((l.filter (fun v => P v && A' v)).map s).sum := by
  induction l with
  | nil => rfl
  | cons a l ih =>
    rw [List.filter_cons, List.filter_cons]
    by_cases hP : P a
    · by_cases hA : A' a
      · have hc : (P a && A' a) = true := by rw [hP, hA]; rfl
        rw [if_pos hP, if_pos hc, List.map_cons, List.map_cons, List.sum_cons, List.sum_cons,
          ih, if_pos hA, mul_one]
      · have hA' : A' a = false := Bool.eq_false_iff.mpr hA
        have hc : ¬(P a && A' a) = true := by rw [hP, hA']; exact Bool.false_ne_true
        rw [if_pos hP, if_neg hc, List.map_cons, List.sum_cons, ih, if_neg hA, mul_zero, zero_add]
    · have hP' : P a = false := Bool.eq_false_iff.mpr hP
      have hc : ¬(P a && A' a) = true := by rw [hP']; simp
      rw [if_neg hP, if_neg hc, ih]

theorem mem_capacityConstraints (V C X : Int) (sizes : List Int)
    (pairs : Finset (Int × Int)) (cc : CapConstraint) :
    cc ∈ capacityConstraints V C X sizes pairs ↔
      ∃ c : Nat, c < C.toNat ∧
        cc = ⟨(c : Int),
          ((List.range V.toNat).filter
            (fun (v : Nat) => decide (((c : Int), (v : Int)) ∈ pairs))).map
            (fun (v : Nat) => (sizes.getD v 0, ((c : Int), (v : Int)))),
          X⟩ := by
  rw [capacityConstraints, List.mem_map]
  constructor
  · rintro ⟨c, hc, rfl⟩
    exact ⟨c, List.mem_range.mp hc, rfl⟩
  · rintro ⟨c, hc, rfl⟩
    exact ⟨c, List.mem_range.mpr hc, rfl⟩

theorem capacityConstraints_getD (V C X : Int) (sizes : List Int)
    (pairs : Finset (Int × Int)) (c : Nat) (hc : c < C.toNat) :
    (capacityConstraints V C X sizes pairs).getD c ⟨0, [], 0⟩ =
      ⟨(c : Int),
       ((List.range V.toNat).filter
          (fun (v : Nat) => decide (((c : Int), (v : Int)) ∈ pairs))).map
         (fun (v : Nat) => (sizes.getD v 0, ((c : Int), (v : Int)))),
       X⟩ := by
  have hlen : c < (capacityConstraints V C X sizes pairs).length := by
    rw [capacityConstraints, List.length_map, List.length_range]
    exact hc
  rw [List.getD_eq_getElem _ _ hlen]
  simp only [capacityConstraints, List.getElem_map, List.getElem_range]

theorem capacity_semantic (V C X : Int) (sizes : List Int) (pairs : Finset (Int × Int))
    (A : Int × Int → Bool)
    (hA : ∀ cc ∈ capacityConstraints V C X sizes pairs, satisfiesCap A cc)
    (c : Nat) (hc : c < C.toNat) : cacheLoad V sizes pairs A c ≤ X := by
  have hmem : (⟨(c : Int),
      ((List.range V.toNat).filter
        (fun (v : Nat) => decide (((c : Int), (v : Int)) ∈ pairs))).map
        (fun (v : Nat) => (sizes.getD v 0, ((c : Int), (v : Int)))),
      X⟩ : CapConstraint) ∈ capacityConstraints V C X sizes pairs :=
    (mem_capacityConstraints V C X sizes pairs _).mpr ⟨c, hc, rfl⟩
  have hs := hA _ hmem
  rw [satisfiesCap] at hs
  rw [List.map_map] at hs
  simp only [Function.comp] at hs
  rw [cacheLoad]
  rw [← sum_filter_indicator (List.range V.toNat)
    (fun (v : Nat) => decide (((c : Int), (v : Int)) ∈ pairs))
    (fun (v : Nat) => A ((c : Int), (v : Int)))
    (fun (v : Nat) => sizes.getD v 0)]
  exact hs

theorem capacityConstraints_cache_range (V C X : Int) (sizes : List Int)
    (pairs : Finset (Int × Int)) (cc : CapConstraint)
    (h : cc ∈ capacityConstraints V C X sizes pairs) :
    (0 ≤ cc.cache ∧ cc.cache < C) ∧ ∀ t ∈ cc.terms, t.2.1 = cc.cache := by
  rcases (mem_capacityConstraints V C X sizes pairs cc).mp h with ⟨c, hc, rfl⟩
  refine ⟨⟨Int.natCast_nonneg c, Int.lt_toNat.mp hc⟩, ?_⟩
  intro t ht
  rcases List.mem_map.mp ht with ⟨v, _, rfl⟩
  rfl

theorem satisfiesCap_congr (cc : CapConstraint) (A A' : Int × Int → Bool)
    (h : ∀ t ∈ cc.terms, A t.2 = A' t.2) : satisfiesCap A cc ↔ satisfiesCap A' cc := by
  unfold satisfiesCap
  rw [List.map_congr_left (fun t ht => by rw [h t ht])]

/-! ## Lemmas about the solution extraction -/

theorem extract_fold_lookup (val : Int × Int → ℚ) (c : Int) :
    ∀ (pairs : List (Int × Int)) (sol : List (Int × List Int)),
      dictLookup (pairs.foldl (fun sol p =>
          if (1 : ℚ)/2 < val p then dictUpsert sol p.1 [] (fun l => l ++ [p.2]) else sol)
        sol) c [] =
        dictLookup sol c [] ++
          ((pairs.filter (fun p => decide ((1 : ℚ)/2 < val p) && decide (p.1 = c))).map
            (fun p => p.2)) := by
  intro pairs
  induction pairs with
  | nil => intro sol; simp
  | cons p pairs ih =>
    intro sol
    rw [List.foldl_cons, List.filter_cons]
    by_cases hval : (1 : ℚ)/2 < val p
    · rw [if_pos hval, ih, dictLookup_upsert]
      by_cases hc : c = p.1
      · have hcond : (decide ((1 : ℚ)/2 < val p) && decide (p.1 = c)) = true := by
          rw [decide_eq_true hval, decide_eq_true hc.symm]
          rfl
        rw [if_pos hc, if_pos hcond, List.map_cons, hc]
        rw [List.append_assoc, List.singleton_append]
      · have hcond : ¬((decide ((1 : ℚ)/2 < val p) && decide (p.1 = c)) = true) := by
          intro h
          simp only [Bool.and_eq_true, decide_eq_true_eq] at h
          exact hc h.2.symm
        rw [if_neg hc, if_neg hcond]
    · rw [if_neg hval, ih]
      have hcond : ¬((decide ((1 : ℚ)/2 < val p) && decide (p.1 = c)) = true) := by
        intro h
        simp only [Bool.and_eq_true, decide_eq_true_eq] at h
        exact hval h.1
      rw [if_neg hcond]

theorem extract_fold_keys (val : Int × Int → ℚ) (c : Int) :
    ∀ (pairs : List (Int × Int)) (sol : List (Int × List Int)),
      (c ∈ dictKeys (pairs.foldl (fun sol p =>
          if (1 : ℚ)/2 < val p then dictUpsert sol p.1 [] (fun l => l ++ [p.2]) else sol)
        sol) ↔
        c ∈ dictKeys sol ∨ ∃ p ∈ pairs, (1 : ℚ)/2 < val p ∧ p.1 = c) := by
  intro pairs
  induction pairs with
  | nil => intro sol; simp
  | cons p pairs ih =>
    intro sol
    rw [List.foldl_cons]
    by_cases hval : (1 : ℚ)/2 < val p
    · rw [if_pos hval, ih, mem_dictKeys_upsert]
      simp only [List.mem_cons]
      constructor
      · rintro ((h | h) | ⟨p', hp', hv', hc'⟩)
        · exact Or.inl h
        · exact Or.inr ⟨p, Or.inl rfl, hval, h.symm⟩
        · exact Or.inr ⟨p', Or.inr hp', hv', hc'⟩
      · rintro (h | ⟨p', rfl | hp', hv', hc'⟩)
        · exact Or.inl (Or.inl h)
        · exact Or.inl (Or.inr hc'.symm)
        · exact Or.inr ⟨p', hp', hv', hc'⟩
    · rw [if_neg hval, ih]
      constructor
      · rintro (h | ⟨p', hp', hv', hc'⟩)
        · exact Or.inl h
        · exact Or.inr ⟨p', List.mem_cons_of_mem p hp', hv', hc'⟩
      · rintro (h | ⟨p', hp', hv', hc'⟩)
        · exact Or.inl h
        · rcases List.mem_cons.mp hp' with rfl | hp'
          · exact absurd hv' hval
          · exact Or.inr ⟨p', hp', hv', hc'⟩

theorem extract_fold_nodup (val : Int × Int → ℚ) :
    ∀ (pairs : List (Int × Int)) (sol : List (Int × List Int)),
      (dictKeys sol).Nodup →
      (dictKeys (pairs.foldl (fun sol p =>
          if (1 : ℚ)/2 < val p then dictUpsert sol p.1 [] (fun l => l ++ [p.2]) else sol)
        sol)).Nodup := by
  intro pairs
  induction pairs with
  | nil => intro sol h; exact h
  | cons p pairs ih =>
    intro sol h
    rw [List.foldl_cons]
    by_cases hval : (1 : ℚ)/2 < val p
    · rw [if_pos hval]
      exact ih _ (nodup_dictKeys_upsert _ _ _ _ h)
    · rw [if_neg hval]
      exact ih _ h

/-! ## Lemmas about the parser -/

theorem parseTokens_of_none_mem (toks : Line) (h : none ∈ toks) :
    parseTokens toks = none := by
  induction toks with
  | nil => cases h
  | cons t ts ih =>
    rcases List.mem_cons.mp h with rfl | hmem
    · rfl
    · rcases t with _ | k
      · rfl
      · rw [parseTokens, ih hmem]

theorem parseFixed_none (k : Nat) (toks : Line)
    (h : toks.length ≠ k ∨ none ∈ toks) : parseFixed k toks = none := by
  rcases h with h | h
  · rw [parseFixed, if_neg h]
  · by_cases hlen : toks.length = k
    · rw [parseFixed, if_pos hlen, parseTokens_of_none_mem toks h]
    · rw [parseFixed, if_neg hlen]

theorem parseEndpoints_fail_line (k : Nat) (l : Line) (f : File)
    (h : l.length ≠ 2 ∨ none ∈ l) : parseEndpoints (k + 1) (l :: f) = none := by
  rw [parseEndpoints]
  simp [readLn, parseFixed_none 2 l h]

theorem parseRequests_fail_line (k : Nat) (l : Line) (f : File)
    (h : l.length ≠ 3 ∨ none ∈ l) : parseRequests (k + 1) (l :: f) = none := by
  rw [parseRequests]
  simp [readLn, parseFixed_none 3 l h]

theorem parseConnections_fail_line (d : List (Int × Int)) (k : Nat) (l : Line) (f : File)
    (h : l.length ≠ 2 ∨ none ∈ l) : parseConnections d (k + 1) (l :: f) = none := by
  rw [parseConnections]
  simp [readLn, parseFixed_none 2 l h]

theorem parseEndpoints_fail_eof (k : Nat) : parseEndpoints (k + 1) [] = none := by
  rw [parseEndpoints]
  simp [readLn, parseFixed]

theorem parseRequests_fail_eof (k : Nat) : parseRequests (k + 1) [] = none := by
  rw [parseRequests]
  simp [readLn, parseFixed]

theorem parseConnections_fail_eof (d : List (Int × Int)) (k : Nat) :
    parseConnections d (k + 1) [] = none := by
  rw [parseConnections]
  simp [readLn, parseFixed]

theorem parseInput_fail_header (l : Line) (rest : File)
    (h : l.length ≠ 5 ∨ none ∈ l) : parseInput (l :: rest) = none := by
  rw [parseInput]
  simp [readLn, parseFixed_none 5 l h]

theorem parseInput_fail_sizes (v e r c x : Int) (l2 : Line) (rest : File)
    (h : none ∈ l2) :
    parseInput ([some v, some e, some r, some c, some x] :: l2 :: rest) = none := by
  rw [parseInput]
  simp [readLn, parseFixed, parseTokens, parseTokens_of_none_mem l2 h]

/-! ## Claim theorems -/

/-- C1: for every retained `(v, e)` pair, with `value[i] = L_dc - latency` of the
`i`-th best remaining cache, every marginal gain (`value[i] - value[i+1]` below
the last rank, `value[k-1]` at the last) is non-negative; for every rank `k'`
the sum of the marginal gains from `k'` to `k-1` telescopes to exactly
`value[k']`; and the linearized objective contribution of the pair (each cover
variable at its tight value for the placement `stored`) equals `n` times the
latency saved by the best cache actually storing the video, and `0` if no
listed cache stores it. -/
theorem marginal_gain_telescoping (ep : Endpoint) (v e n : Int) (stored : Int → Bool) :
    (∀ i : Nat, i < (pairValues ep).length → 0 ≤ mgAt (pairValues ep) i) ∧
    (∀ j : Nat, j < (pairValues ep).length →
      (∑ i ∈ Finset.Ico j (pairValues ep).length, mgAt (pairValues ep) i) =
        (pairValues ep).getD j 0) ∧
    (pairContribution ep v e n stored =
      n * (match (validCaches ep).findIdx? (fun p => stored p.1) with
           | some j => (pairValues ep).getD j 0
           | none => 0)) :=
  ⟨fun i hi => mgAt_nonneg ep i hi,
   fun j hj => mgAt_telescope (pairValues ep) j hj,
   pairContribution_eq ep v e n stored⟩

/-- C1 witness: the telescoping facts evaluated on the sample endpoint with
latencies 10 and 20 against a datacenter latency of 100, demand 5, with the
video stored only on the second-best cache (saving 80 per request, 400 total). -/
theorem marginal_gain_telescoping_witness :
    (0 ≤ mgAt (pairValues epA) 0) ∧
    ((∑ i ∈ Finset.Ico 0 (pairValues epA).length, mgAt (pairValues epA) i) =
      (pairValues epA).getD 0 0) ∧
    (pairContribution epA 0 0 5 storedB =
      5 * (match (validCaches epA).findIdx? (fun p => storedB p.1) with
           | some j => (pairValues epA).getD j 0
           | none => 0)) ∧
    pairContribution epA 0 0 5 storedB = 400 := by
  obtain ⟨h1, h2, h3⟩ := marginal_gain_telescoping epA 0 0 5 storedB
  exact ⟨h1 0 (by decide), h2 0 (by decide), h3, by decide⟩

/-- C2 counterexample: the input `reqsZero` contains one request record with
`n = 0`; its aggregated demand for `(v, e) = (0, 0)` is `0`, not strictly
positive, yet the code still creates two `z` variables (with objective
coefficient `0`) and their cover constraints for that pair. -/
theorem z_creation_zero_demand_cex :
    aggDemand reqsZero (0, 0) = 0 ∧
    (zTerms epsA reqsZero).map (fun t => (t.v, t.e, t.i, t.coeff)) =
      [(0, 0, 0, 0), (0, 0, 1, 0)] := by
  exact ⟨by decide, by decide⟩

/-- C2 (amended): a `z` term exists exactly for each `(v, e)` key present in
the aggregated request dict (whatever the sign of the aggregated demand `n`)
and each rank `i` with `marginalGain[i] > 0`, carrying objective coefficient
`marginalGain[i] * n` and the cover subset of the `i + 1` best caches; the
`(v, e, i)` identifiers are pairwise distinct, so exactly one `z` variable and
one cover constraint exist per such triple; and a pair is a key of the
aggregated dict exactly when some request record mentions it. -/
theorem z_creation_characterization (eps : List Endpoint) (reqs : List Request) (t : ZTerm) :
    (t ∈ zTerms eps reqs ↔
      ((t.v, t.e) ∈ dictKeys (requestsSummary reqs) ∧
        ∃ i : Nat, i < (validCaches (pyIdx eps t.e)).length ∧
          0 < mgAt (pairValues (pyIdx eps t.e)) i ∧
          t = ⟨t.v, t.e, i, mgAt (pairValues (pyIdx eps t.e)) i * aggDemand reqs (t.v, t.e),
            ((validCaches (pyIdx eps t.e)).take (i + 1)).map (fun p => p.1)⟩)) ∧
    ((zTerms eps reqs).map (fun t => (t.v, t.e, t.i))).Nodup ∧
    (∀ p : Int × Int, p ∈ dictKeys (requestsSummary reqs) ↔ ∃ r ∈ reqs, (r.v, r.e) = p) := by
  refine ⟨?_, zTerms_ids_nodup eps reqs, fun p => mem_keys_requestsSummary reqs p⟩
  rw [mem_zTerms_iff, mem_pairZTerms]

/-- C2 witness: the characterization instantiated on the sample input — the
rank-1 `z` variable for the pair `(0, 0)` with demand 5 exists, with
coefficient `80 * 5 = 400` and cover subset `[0, 1]`. -/
theorem z_creation_characterization_witness :
    (⟨0, 0, 1, 400, [0, 1]⟩ : ZTerm) ∈ zTerms epsA reqsA := by
  refine ((z_creation_characterization epsA reqsA ⟨0, 0, 1, 400, [0, 1]⟩).1).mpr
    ⟨by decide, 1, by decide, by decide, by decide⟩

/-- C3: the relevance filter contains a pair `(c, v)` exactly when some request
record references video `v` at an endpoint whose cache-connection dict contains
cache `c`; the output is a finite set (no duplicates by construction), and the
model's `x` variables are keyed by exactly this set. -/
theorem relevance_filter_iff (eps : List Endpoint) (reqs : List Request) (c v : Int) :
    ((c, v) ∈ relevantPairs eps reqs ↔
      ∃ r ∈ reqs, r.v = v ∧ c ∈ dictKeys (pyIdx eps r.e).caches) ∧
    (∀ inp : Input, (buildModel inp).xvars = relevantPairs inp.endpoints inp.requests) :=
  ⟨mem_relevantPairs eps reqs c v, fun _ => rfl⟩

/-- C3 witness: on the sample input, cache 1 is connected to endpoint 0 and
video 0 is requested there, so `(1, 0)` is a relevant pair. -/
theorem relevance_filter_iff_witness : (1, 0) ∈ relevantPairs epsA reqsA := by
  refine ((relevance_filter_iff epsA reqsA 1 0).1).mpr ⟨⟨0, 0, 5⟩, by decide, rfl, by decide⟩

/-- C6: the retained cache list of an endpoint is sorted ascending by latency;
it contains exactly the connected caches whose latency is strictly below the
datacenter latency; and when it is empty (in particular when the endpoint has
no connected cache at all) the `(v, e)` pair produces no objective terms, no
auxiliary variables and no cover constraints — silently, as a total function,
not an error. -/
theorem cache_sorting_filtering (ep : Endpoint) (v e n : Int) :
    List.Pairwise (fun a b : Int × Int => a.2 ≤ b.2) (validCaches ep) ∧
    (∀ p : Int × Int, p ∈ validCaches ep ↔ p ∈ ep.caches ∧ p.2 < ep.L_dc) ∧
    (validCaches ep = [] → pairZTerms ep v e n = []) ∧
    (ep.caches = [] → pairZTerms ep v e n = []) :=
  ⟨validCaches_sorted ep, fun p => mem_validCaches ep p,
   fun h => pairZTerms_of_no_valid ep v e n h,
   fun h => pairZTerms_of_no_valid ep v e n (by rw [validCaches, sortedCaches, h]; rfl)⟩

/-- C6 witness: an endpoint whose only cache is slower than the datacenter and
an endpoint with no caches both contribute no terms. -/
theorem cache_sorting_filtering_witness :
    pairZTerms epBad 0 0 1 = [] ∧ pairZTerms epNone 0 0 1 = [] := by
  obtain ⟨_, _, h3, _⟩ := cache_sorting_filtering epBad 0 0 1
  obtain ⟨_, _, _, h4⟩ := cache_sorting_filtering epNone 0 0 1
  exact ⟨h3 (by decide), h4 (by decide)⟩

/-- C4: the capacity-constraint list has exactly one entry per cache
`c ∈ [0, C)` (its cache ids are exactly `range C`, in order, hence pairwise
distinct, and a constraint is present even when no variable references the
cache); the `c`-th constraint is exactly
`Σ over v in range(V) with (c, v) relevant of size_bytes[v] * x[c, v] ≤ X`;
and every assignment of the `x` variables satisfying all capacity constraints
loads each cache `c ∈ [0, C)` with at most `X` bytes. -/
theorem capacity_constraints_form (V C X : Int) (sizes : List Int)
    (pairs : Finset (Int × Int)) (A : Int × Int → Bool) :
    ((capacityConstraints V C X sizes pairs).map (fun cc => cc.cache) =
      (List.range C.toNat).map (fun c : Nat => (c : Int))) ∧
    ((capacityConstraints V C X sizes pairs).map (fun cc => cc.cache)).Nodup ∧
    (∀ c : Nat, c < C.toNat →
      (capacityConstraints V C X sizes pairs).getD c ⟨0, [], 0⟩ =
        ⟨(c : Int),
         ((List.range V.toNat).filter
            (fun (v : Nat) => decide (((c : Int), (v : Int)) ∈ pairs))).map
           (fun (v : Nat) => (sizes.getD v 0, ((c : Int), (v : Int)))),
         X⟩) ∧
    ((∀ cc ∈ capacityConstraints V C X sizes pairs, satisfiesCap A cc) →
      ∀ c : Nat, c < C.toNat → cacheLoad V sizes pairs A c ≤ X) := by
  have hmap : (capacityConstraints V C X sizes pairs).map (fun cc => cc.cache) =
      (List.range C.toNat).map (fun c : Nat => (c : Int)) := by
    rw [capacityConstraints, List.map_map]
    rfl
  refine ⟨hmap, ?_, ?_, ?_⟩
  · rw [hmap]
    exact (List.nodup_range _).map (fun a b hab => by exact_mod_cast hab)
  · intro c hc
    exact capacityConstraints_getD V C X sizes pairs c hc
  · intro hA c hc
    exact capacity_semantic V C X sizes pairs A hA c hc

/-- C4 witness: on a two-cache model over the sample relevant pairs with video
size 3 and capacity 10, the all-ones assignment satisfies the constraints and
the resulting load on cache 0 is within the capacity. -/
theorem capacity_constraints_form_witness :
    ((capacityConstraints 1 2 10 [3] (relevantPairs epsA reqsA)).map (fun cc => cc.cache) =
      (List.range (2 : Int).toNat).map (fun c : Nat => (c : Int))) ∧
    cacheLoad 1 [3] (relevantPairs epsA reqsA) (fun _ => true) 0 ≤ 10 := by
  obtain ⟨h1, _, _, h4⟩ :=
    capacity_constraints_form 1 2 10 [3] (relevantPairs epsA reqsA) (fun _ => true)
  exact ⟨h1, h4 (by decide) 0 (by decide)⟩

/-- C5: the aggregated dict maps every `(v, e)` pair to the sum of the request
counts of all records for that pair; and two request lists whose aggregated
demand functions coincide produce the same objective function of the `z`
variables. -/
theorem aggregation_objective (eps : List Endpoint) (r1 r2 : List Request) :
    (∀ p : Int × Int, dictLookup (requestsSummary r1) p 0 = aggDemand r1 p) ∧
    ((∀ p : Int × Int, aggDemand r1 p = aggDemand r2 p) →
      ∀ zA : Int × Int × Nat → Bool, objValue eps r1 zA = objValue eps r2 zA) := by
  refine ⟨fun p => dictLookup_requestsSummary r1 p, ?_⟩
  intro h zA
  rw [objValue_eq_keyed, objValue_eq_keyed]
  have h1 : ∑ p ∈ (dictKeys (requestsSummary r1)).toFinset,
      aggDemand r1 p *
        ((pairZTerms (pyIdx eps p.2) p.1 p.2 1).map
          (fun t => t.coeff * (if zA (t.v, t.e, t.i) then 1 else 0))).sum =
      ∑ p ∈ (dictKeys (requestsSummary r1)).toFinset ∪ (dictKeys (requestsSummary r2)).toFinset,
        aggDemand r1 p *
          ((pairZTerms (pyIdx eps p.2) p.1 p.2 1).map
            (fun t => t.coeff * (if zA (t.v, t.e, t.i) then 1 else 0))).sum := by
    refine Finset.sum_subset Finset.subset_union_left ?_
    intro p _ hp
    rw [List.mem_toFinset] at hp
    rw [aggDemand_eq_zero_of_not_mem r1 p hp, zero_mul]
  have h2 : ∑ p ∈ (dictKeys (requestsSummary r2)).toFinset,
      aggDemand r2 p *
        ((pairZTerms (pyIdx eps p.2) p.1 p.2 1).map
          (fun t => t.coeff * (if zA (t.v, t.e, t.i) then 1 else 0))).sum =
      ∑ p ∈ (dictKeys (requestsSummary r1)).toFinset ∪ (dictKeys (requestsSummary r2)).toFinset,
        aggDemand r2 p *
          ((pairZTerms (pyIdx eps p.2) p.1 p.2 1).map
            (fun t => t.coeff * (if zA (t.v, t.e, t.i) then 1 else 0))).sum := by
    refine Finset.sum_subset Finset.subset_union_right ?_
    intro p _ hp
    rw [List.mem_toFinset] at hp
    rw [aggDemand_eq_zero_of_not_mem r2 p hp, zero_mul]
  rw [h1, h2]
  exact Finset.sum_congr rfl (fun p _ => by rw [h p])

/-- C5 witness: splitting the demand 5 into records of 2 and 3 yields the same
aggregated lookup and the same objective as the single record of 5. -/
theorem aggregation_objective_witness :
    dictLookup (requestsSummary reqsDup) (0, 0) 0 = aggDemand reqsDup (0, 0) ∧
    objValue epsA reqsDup (fun _ => true) = objValue epsA reqsA (fun _ => true) := by
  obtain ⟨w1, w2⟩ := aggregation_objective epsA reqsDup reqsA
  refine ⟨w1 (0, 0), w2 ?_ (fun _ => true)⟩
  intro p
  by_cases hp : p = ((0 : Int), (0 : Int))
  · subst hp
    decide
  · have hne : ¬((0 : Int), (0 : Int)) = p := fun hh => hp hh.symm
    have hz : ∀ (rs : List Request), (∀ r ∈ rs, (r.v, r.e) = (0, 0)) → aggDemand rs p = 0 := by
      intro rs hall
      rw [aggDemand, List.filter_eq_nil_iff.mpr ?_]
      · rfl
      · intro r hr
        simp only [decide_eq_true_eq]
        intro hrp
        exact hne ((hall r hr).symm.trans hrp)
    rw [hz reqsDup (by decide), hz reqsA (by decide)]

/-- C7: when the solver reports at least one feasible solution, the extracted
dict maps each cache `c` to exactly the videos of the scanned variables with
value above one half (in scan order); a cache appears as a key exactly when it
has at least one such video; the number of entries — which is what the first
output line prints — equals the number of distinct caches with at least one
assigned video; and when the solver reports no feasible solution the dict is
empty and the output is the single line `0`, with no error. -/
theorem solution_extraction (solCount : Nat) (pairs : List (Int × Int))
    (val : Int × Int → ℚ) :
    (0 < solCount → ∀ c : Int,
      dictLookup (extractSolution solCount pairs val) c [] =
        ((pairs.filter (fun p => decide ((1 : ℚ)/2 < val p) && decide (p.1 = c))).map
          (fun p => p.2))) ∧
    (0 < solCount → ∀ c : Int,
      (c ∈ dictKeys (extractSolution solCount pairs val) ↔
        ∃ w : Int, (c, w) ∈ pairs ∧ (1 : ℚ)/2 < val (c, w))) ∧
    (0 < solCount →
      (extractSolution solCount pairs val).length =
        (((pairs.filter (fun p => decide ((1 : ℚ)/2 < val p))).map
          (fun p => p.1)).toFinset).card) ∧
    (outputLines (extractSolution solCount pairs val)).headD "" =
      toString (extractSolution solCount pairs val).length ∧
    extractSolution 0 pairs val = [] ∧
    outputLines (extractSolution 0 pairs val) = ["0"] := by
  refine ⟨?_, ?_, ?_, rfl, ?_, ?_⟩
  · intro h c
    rw [extractSolution, if_pos h, extract_fold_lookup]
    simp [dictLookup]
  · intro h c
    rw [extractSolution, if_pos h]
    rw [extract_fold_keys val c pairs []]
    constructor
    · rintro (h0 | ⟨p', hp', hv', hc'⟩)
      · simp [dictKeys] at h0
      · subst hc'
        exact ⟨p'.2, by simpa using hp', by simpa using hv'⟩
    · rintro ⟨w, hw, hv⟩
      exact Or.inr ⟨(c, w), hw, hv, rfl⟩
  · intro h
    rw [extractSolution, if_pos h]
    have hnd : (dictKeys (pairs.foldl (fun sol p =>
        if (1 : ℚ)/2 < val p then dictUpsert sol p.1 [] (fun l => l ++ [p.2]) else sol)
      [])).Nodup :=
      extract_fold_nodup val pairs [] (by simp [dictKeys])
    rw [show (pairs.foldl (fun sol p =>
        if (1 : ℚ)/2 < val p then dictUpsert sol p.1 [] (fun l => l ++ [p.2]) else sol)
      []).length = (dictKeys (pairs.foldl (fun sol p =>
        if (1 : ℚ)/2 < val p then dictUpsert sol p.1 [] (fun l => l ++ [p.2]) else sol)
      [])).length from (List.length_map _ _).symm]
    rw [← List.toFinset_card_of_nodup hnd]
    congr 1
    ext a
    rw [List.mem_toFinset, extract_fold_keys val a pairs [], List.mem_toFinset]
    constructor
    · rintro (h0 | ⟨p', hp', hv', hc'⟩)
      · simp [dictKeys] at h0
      · exact List.mem_map.mpr ⟨p', List.mem_filter.mpr ⟨hp', decide_eq_true hv'⟩, hc'⟩
    · intro hm
      rcases List.mem_map.mp hm with ⟨p', hp', hc'⟩
      rcases List.mem_filter.mp hp' with ⟨hmem, hdec⟩
      exact Or.inr ⟨p', hmem, of_decide_eq_true hdec, hc'⟩
  · rw [extractSolution, if_neg (lt_irrefl 0)]
  · rw [extractSolution, if_neg (lt_irrefl 0)]
    decide

/-- C7 witness: extraction on three scanned variables of which two are set —
cache 0 gets video 0, cache 1 gets video 1, the entry count matches the number
of caches used, and a zero solution count yields the empty placement. -/
theorem solution_extraction_witness :
    dictLookup (extractSolution 1 pairsW valW) 0 [] =
      ((pairsW.filter (fun p => decide ((1 : ℚ)/2 < valW p) && decide (p.1 = 0))).map
        (fun p => p.2)) ∧
    (extractSolution 1 pairsW valW).length =
      (((pairsW.filter (fun p => decide ((1 : ℚ)/2 < valW p))).map
        (fun p => p.1)).toFinset).card ∧
    extractSolution 0 pairsW valW = [] := by
  obtain ⟨h1, _, h3, _, h5, _⟩ := solution_extraction 1 pairsW valW
  exact ⟨h1 (by decide) 0, h3 (by decide), h5⟩

/-- C8 counterexample: `linesBad` declares `V = 1` but its video-sizes line
has three tokens — a token-count mismatch with the declared `V` — yet parsing
succeeds (returning the three sizes unchecked) and a full model is built, so
the program does not fail at all, let alone fast with a parse error. -/
theorem parse_sizes_line_unchecked_cex :
    (parseInput linesBad).map (fun i => (i.V, i.sizes.length)) = some (1, 3) ∧
    (modelOf linesBad).isSome = true :=
  ⟨rfl, rfl⟩

/-- C8 (amended): parsing happens entirely before model construction, so a
parse failure yields no model at all; the header line fails on a token count
other than 5 or a non-integer token; a non-integer token on the video-sizes
line fails (its token count, however, is not validated — see the
counterexample); endpoint, cache-connection and request lines fail on a wrong
token count or a non-integer token; and running out of lines while endpoint or
request records are still expected fails. -/
theorem parse_failures :
    (∀ f : File, parseInput f = none → modelOf f = none) ∧
    (∀ (l : Line) (rest : File), (l.length ≠ 5 ∨ none ∈ l) →
      parseInput (l :: rest) = none) ∧
    (∀ (v e r c x : Int) (l2 : Line) (rest : File), none ∈ l2 →
      parseInput ([some v, some e, some r, some c, some x] :: l2 :: rest) = none) ∧
    (∀ (k : Nat) (l : Line) (f : File), (l.length ≠ 2 ∨ none ∈ l) →
      parseEndpoints (k + 1) (l :: f) = none) ∧
    (∀ (k : Nat) (l : Line) (f : File), (l.length ≠ 3 ∨ none ∈ l) →
      parseRequests (k + 1) (l :: f) = none) ∧
    (∀ (d : List (Int × Int)) (k : Nat) (l : Line) (f : File), (l.length ≠ 2 ∨ none ∈ l) →
      parseConnections d (k + 1) (l :: f) = none) ∧
    (∀ k : Nat, parseEndpoints (k + 1) [] = none) ∧
    (∀ k : Nat, parseRequests (k + 1) [] = none) := by
  refine ⟨?_, ?_, ?_, ?_, ?_, ?_, ?_, ?_⟩
  · intro f h
    rw [modelOf, h]
    rfl
  · intro l rest h
    exact parseInput_fail_header l rest h
  · intro v e r c x l2 rest h
    exact parseInput_fail_sizes v e r c x l2 rest h
  · intro k l f h
    exact parseEndpoints_fail_line k l f h
  · intro k l f h
    exact parseRequests_fail_line k l f h
  · intro d k l f h
    exact parseConnections_fail_line d k l f h
  · intro k
    exact parseEndpoints_fail_eof k
  · intro k
    exact parseRequests_fail_eof k

/-- C8 witness: a two-token header, a non-integer size token, and a truncated
file each make parsing fail, and the failed parse builds no model. -/
theorem parse_failures_witness :
    parseInput [[some 1, some 2]] = none ∧
    parseInput ([some 1, some 1, some 1, some 1, some 10] :: [some 3, none] :: []) = none ∧
    parseEndpoints 1 [] = none ∧
    modelOf [[some 1, some 2]] = none := by
  obtain ⟨h1, h2, h3, _, _, _, h7, _⟩ := parse_failures
  have ha := h2 [some 1, some 2] [] (Or.inl (by decide))
  exact ⟨ha, h3 1 1 1 1 10 [some 3, none] [] (by decide), h7 0, h1 _ ha⟩

/-- C9: the solver parameters the script applies are the constants
`MipGap = 0.005` and `TimeLimit = 300`; the command line requires the input
file as the (only recognized) positional argument — fewer than two `argv`
entries is a usage error, otherwise `argv[1]` is used. -/
theorem configuration_surface :
    solverParams.mipGap = 1/200 ∧
    solverParams.timeLimit = 300 ∧
    (∀ argv : List String, argv.length < 2 → cliInputFile argv = none) ∧
    (∀ argv : List String, 2 ≤ argv.length → cliInputFile argv = some (argv.getD 1 "")) := by
  refine ⟨by norm_num [solverParams], rfl, ?_, ?_⟩
  · intro argv h
    rw [cliInputFile, if_pos h]
  · intro argv h
    rw [cliInputFile, if_neg (by omega)]

/-- C9 witness: with no input argument the program reports usage, with one it
reads that file; the applied parameters equal the documented defaults. -/
theorem configuration_surface_witness :
    cliInputFile ["videos.py"] = none ∧
    cliInputFile ["videos.py", "input.txt"] = some "input.txt" ∧
    solverParams.mipGap = 1/200 := by
  obtain ⟨h1, _, h3, h4⟩ := configuration_surface
  refine ⟨h3 ["videos.py"] (by decide), ?_, h1⟩
  have h := h4 ["videos.py", "input.txt"] (by decide)
  simpa using h

/-- C10: a cache id outside `[0, C)` that appears in a demanded endpoint's
connection list still receives placement variables (its pairs are relevant),
but no capacity constraint mentions it — every capacity constraint's cache,
and every variable in its terms, lies in `[0, C)` — so capacity satisfaction
is unaffected by how videos are assigned to such a cache: the model places no
size limit on it. -/
theorem unbounded_foreign_cache (eps : List Endpoint) (reqs : List Request)
    (V C X : Int) (sizes : List Int) (cOut : Int) (hc : C ≤ cOut ∨ cOut < 0) :
    (∀ r ∈ reqs, cOut ∈ dictKeys (pyIdx eps r.e).caches →
      (cOut, r.v) ∈ relevantPairs eps reqs) ∧
    (∀ cc ∈ capacityConstraints V C X sizes (relevantPairs eps reqs),
      cc.cache ≠ cOut ∧ ∀ t ∈ cc.terms, t.2.1 ≠ cOut) ∧
    (∀ A A' : Int × Int → Bool, (∀ p : Int × Int, p.1 ≠ cOut → A p = A' p) →
      ∀ cc ∈ capacityConstraints V C X sizes (relevantPairs eps reqs),
        satisfiesCap A cc → satisfiesCap A' cc) := by
  have hrange : ∀ cc ∈ capacityConstraints V C X sizes (relevantPairs eps reqs),
      cc.cache ≠ cOut ∧ ∀ t ∈ cc.terms, t.2.1 ≠ cOut := by
    intro cc hcc
    rcases capacityConstraints_cache_range V C X sizes _ cc hcc with ⟨⟨h0, hC⟩, hterms⟩
    have hcache : cc.cache ≠ cOut := by rcases hc with hc | hc <;> omega
    exact ⟨hcache, fun t ht => by rw [hterms t ht]; exact hcache⟩
  refine ⟨?_, hrange, ?_⟩
  · intro r hr hcm
    exact (mem_relevantPairs eps reqs cOut r.v).mpr ⟨r, hr, rfl, hcm⟩
  · intro A A' hAA cc hcc hsat
    refine (satisfiesCap_congr cc A A' ?_).mp hsat
    intro t ht
    exact hAA t.2 ((hrange cc hcc).2 t ht)

/-- C10 witness: with `C = 1`, the cache id 5 connected to the demanded
endpoint gets a placement variable, no capacity constraint names it, and the
assignment storing an oversized video (size 20 > X = 10) only on cache 5
satisfies every capacity constraint of the model. -/
theorem unbounded_foreign_cache_witness :
    (5, 0) ∈ relevantPairs epsHigh reqsHigh ∧
    (∀ cc ∈ capacityConstraints 1 1 10 [20] (relevantPairs epsHigh reqsHigh),
      cc.cache ≠ 5 ∧ ∀ t ∈ cc.terms, t.2.1 ≠ 5) ∧
    (∀ cc ∈ capacityConstraints 1 1 10 [20] (relevantPairs epsHigh reqsHigh),
      satisfiesCap (fun p => p == (5, 0)) cc) := by
  obtain ⟨h1, h2, _⟩ :=
    unbounded_foreign_cache epsHigh reqsHigh 1 1 10 [20] 5 (Or.inl (by decide))
  exact ⟨h1 ⟨0, 0, 3⟩ (by decide) (by decide), h2, by decide⟩

end Videos
